import Mathlib

/-!
Shallow embedding of the page-background animation engine of
`src/src/scripts/page-background.ts` (the "spectre" theme's falling-letters
overlay), together with proofs about the properties its specification
states.  Numbers that the JavaScript source handles as IEEE doubles are
modelled as exact reals (`ℝ`) or rationals (`ℚ`); the stream of values
produced by `Math.random()` is passed in explicitly; the mutable canvas is
modelled as a trace of drawing commands; `Date.now()` is an explicit `now`
parameter.  Each definition mirrors one function (or one loop) of the
source file and keeps its name.
-/

namespace Spectre

/-- Ceiling division on naturals, the embedding of `Math.ceil(a / b)` for the
integer viewport dimensions the source feeds it. -/
def jsCeilDiv (a b : ℕ) : ℕ :=
  (⌈(a : ℚ) / (b : ℚ)⌉).toNat

/-- Rounding to the nearest integer with ties away from zero (for
non-negative arguments: ties up), the embedding of
`Number.parseInt(q.toFixed())` for the non-negative `q` the source feeds
it. -/
def jsRound (q : ℚ) : ℤ :=
  ⌊q + 1 / 2⌋

/-- One cell of the background grid: interface `LetterPosition` of the
source. -/
structure LetterPosition where
  x : ℕ
  y : ℕ
  letter : Char
deriving DecidableEq, Repr

/-- Fallback element for out-of-range array reads (JavaScript would yield
`undefined`; every theorem below rules the fallback out by hypothesis). -/
def defaultLetterPosition : LetterPosition :=
  { x := 0, y := 0, letter := ' ' }

/-- One animating letter: interface `LetterInstance` of the source.
`timestamp` and `fadeout` are wall-clock milliseconds as produced by
`Date.now()` plus real-valued duration arithmetic. -/
structure LetterInstance where
  x : ℕ
  y : ℕ
  letter : Char
  timestamp : ℝ
  fadeout : ℝ

noncomputable instance : DecidableEq LetterInstance :=
  Classical.decEq _

/-- The field `LETTER_FADE_DURATION: [number, number] = [2, 7]` (seconds). -/
def LETTER_FADE_DURATION : ℝ × ℝ :=
  (2, 7)

/-- One command issued to the 2D drawing context: either
`clearRect(0, 0, w, h)` or a `fillText(letter, x, y)` performed with
`fillStyle = rgba(primary, fillAlpha)` and `shadowColor =
rgba(primary, shadowAlpha)`. -/
inductive DrawCmd where
  | clear : DrawCmd
  | fill (letter : Char) (x y : ℕ) (fillAlpha shadowAlpha : ℝ) : DrawCmd

/-- The method `easeInOutSine(timestamp, start, end)` of the source,
branch for branch (`endT` stands for the source's `end`, a Lean keyword). -/
noncomputable def easeInOutSine (timestamp start endT : ℝ) : ℝ :=
  let totalDuration := endT - start
  if timestamp < start then
    0
  else if timestamp > endT then
    let elapsedAfterEnd := timestamp - endT
    let progressAfterEnd := elapsedAfterEnd / (totalDuration / 2)
    Real.sin (progressAfterEnd * Real.pi)
  else
    let progress := (timestamp - start) / totalDuration
    max 0 (0.5 - 0.5 * Real.cos (progress * Real.pi))

/-- The sparse redirection map of `getRandomAmountFromArray`: the source's
`x in taken ? taken[x] : x`, with the JavaScript sparse array `taken`
modelled as an association list (latest assignment first). -/
def resolve (taken : List (ℕ × ℕ)) (i : ℕ) : ℕ :=
  match List.lookup i taken with
  | some v => v
  | none => i

/-- Index-level body of the `while(n--)` loop of `getRandomAmountFromArray`:
`rs` is the stream of already-floored values `Math.floor(Math.random() * len)`,
one per iteration, and the returned list collects the selected source
indices exactly as `result` collects the selected elements (the first pick
lands at the back, as the source writes `result[n]` with `n` counting
down). -/
def sampleIdxLoop : ℕ → List (ℕ × ℕ) → List ℕ → List ℕ → List ℕ
  | _, _, [], result => result
  | len, taken, x :: rest, result =>
      sampleIdxLoop (len - 1) ((x, resolve taken (len - 1)) :: taken) rest
        (resolve taken x :: result)

/-- Element-level body of the same loop: `result[n] = arr[x in taken ?
taken[x] : x]` followed by `taken[x] = --len in taken ? taken[len] : len`. -/
def sampleLoop (arr : List α) (dflt : α) : ℕ → List (ℕ × ℕ) → List ℕ → List α → List α
  | _, _, [], result => result
  | len, taken, x :: rest, result =>
      sampleLoop arr dflt (len - 1) ((x, resolve taken (len - 1)) :: taken) rest
        (arr.getD (resolve taken x) dflt :: result)

/-- The method `getRandomAmountFromArray(arr, n)` of the source: throws (an
`AstroError`, modelled as `Except.error`) when `n > arr.length`, otherwise
runs the selection loop.  `rs` is the stream of floored random indices the
loop consumes, one per iteration (so the caller passes a list of length
`n`); `dflt` stands for JavaScript's `undefined` on an out-of-range read. -/
def getRandomAmountFromArray (arr : List α) (dflt : α) (n : ℕ) (rs : List ℕ) :
    Except String (List α) :=
  if n > arr.length then
    Except.error "getRandomAmountFromArray: more elements taken than available"
  else
    Except.ok (sampleLoop arr dflt arr.length [] rs [])

/-- The grid-building double loop of `initBackground`: `letters =
Math.ceil(width / 17)` columns, `lines = Math.ceil(height / 35)` rows, and
one `LetterPosition` pushed per `(i, j)` in row-major order with position
`(j*17, i*35)` and character `text[j % text.length]`. -/
def initLetterPositions (width height : ℕ) (text : List Char) : List LetterPosition :=
  (List.range (jsCeilDiv height 35)).flatMap fun i =>
    (List.range (jsCeilDiv width 17)).map fun j =>
      { x := j * 17, y := i * 35, letter := text.getD (j % text.length) ' ' }

/-- The seed population size of `initBackground`:
`Number.parseInt((lines * 0.75).toFixed())` with `lines =
Math.ceil(height / 35)` — deliberately keyed to the row count. -/
def seedTarget (height : ℕ) : ℕ :=
  (jsRound ((jsCeilDiv height 35 : ℚ) * 0.75)).toNat

/-- Result of `initBackground` (and of `resizeBackground`): the grid, the
seeded fade instances, and the drawing commands issued while seeding. -/
structure InitResult where
  positions : List LetterPosition
  instances : List LetterInstance
  draws : List DrawCmd

/-- The method `initBackground` of the source: build the grid, select
`Number.parseInt((lines * 0.75).toFixed())` random cells, draw each at
alpha 0 and push a `LetterInstance` for it with `timestamp = now` and
`fadeout = now + (2 + random * 5) * 1000`.  `picks` is the stream of
floored random indices the sampler consumes and `durs` the stream of raw
`Math.random()` values used for the fade durations. -/
noncomputable def initBackground (width height : ℕ) (text : List Char) (now : ℝ)
    (picks : ℕ → ℕ) (durs : ℕ → ℝ) : Except String InitResult :=
  match getRandomAmountFromArray (initLetterPositions width height text)
      defaultLetterPosition (seedTarget height)
      ((List.range (seedTarget height)).map picks) with
  | Except.error e => Except.error e
  | Except.ok randomLetters =>
      Except.ok
        { positions := initLetterPositions width height text
          instances := randomLetters.enum.map fun p =>
            { x := p.2.x, y := p.2.y, letter := p.2.letter
              timestamp := now
              fadeout := now + (LETTER_FADE_DURATION.1 +
                durs p.1 * (LETTER_FADE_DURATION.2 - LETTER_FADE_DURATION.1)) * 1000 }
          draws := randomLetters.map fun l => DrawCmd.fill l.letter l.x l.y 0 0 }

/-- The method `resizeBackground` of the source: record the new viewport
dimensions, clear the canvas, discard both `letterInstances` and
`letterPositions` (the two parameters here, used by nothing below), and
rebuild everything through `initBackground`. -/
noncomputable def resizeBackground (oldPositions : List LetterPosition)
    (oldInstances : List LetterInstance) (newWidth newHeight : ℕ) (text : List Char)
    (now : ℝ) (picks : ℕ → ℕ) (durs : ℕ → ℝ) : Except String InitResult :=
  match initBackground newWidth newHeight text now picks durs with
  | Except.error e => Except.error e
  | Except.ok ir => Except.ok { ir with draws := DrawCmd.clear :: ir.draws }

/-- Result of one frame tick: the instance list after the loop, the trace
of drawing commands, and how far the random streams were consumed. -/
structure TickOut where
  instances : List LetterInstance
  draws : List DrawCmd
  rng : ℕ

/-- The `for(const letter of this.letterInstances)` loop of
`redrawBackground`, with JavaScript's live array iterator made explicit:
`k` is the iterator's index into the current array.  A letter with
`fadeout > now` is skipped (`continue`); otherwise `alpha` is computed,
and when `alpha <= 0 && now > letter.fadeout` the letter is removed
(`splice(indexOf(letter), 1)`, which is `List.erase` of the first equal
element) and a replacement drawn through `getRandomAmountFromArray(..., 1)`
is pushed at the back; in either case the letter is then drawn with `alpha`
as both fill and shadow intensity.  `r` indexes the random streams. -/
noncomputable def redrawLoop (positions : List LetterPosition) (now : ℝ)
    (picks : ℕ → ℕ) (durs : ℕ → ℝ) (instances : List LetterInstance)
    (k : ℕ) (draws : List DrawCmd) (r : ℕ) : Except String TickOut :=
    if h : k < instances.length then
      let letter := instances[k]
      if letter.fadeout > now then
        redrawLoop positions now picks durs instances (k + 1) draws r
      else
        let alpha := easeInOutSine now letter.timestamp letter.fadeout
        if alpha ≤ 0 ∧ now > letter.fadeout then
          match getRandomAmountFromArray positions defaultLetterPosition 1 [picks r] with
          | Except.error e => Except.error e
          | Except.ok randomLetter =>
            let rl := randomLetter.getD 0 defaultLetterPosition
            let fresh : LetterInstance :=
              { x := rl.x, y := rl.y, letter := rl.letter,
                timestamp := now,
                fadeout := now + (LETTER_FADE_DURATION.1 +
                  durs r * (LETTER_FADE_DURATION.2 - LETTER_FADE_DURATION.1)) * 1000 }
            redrawLoop positions now picks durs
              (instances.erase letter ++ [fresh])
              (k + 1)
              (draws ++ [DrawCmd.fill letter.letter letter.x letter.y alpha alpha]) (r + 1)
        else
          redrawLoop positions now picks durs instances (k + 1)
            (draws ++ [DrawCmd.fill letter.letter letter.x letter.y alpha alpha]) r
    else
      Except.ok { instances := instances, draws := draws, rng := r }
termination_by instances.length - k
decreasing_by
  all_goals first
    | omega
    | · simp only [List.length_append, List.length_erase_of_mem (List.getElem_mem h),
          List.length_cons, List.length_nil]
        omega

/-- The method `redrawBackground` of the source: clear the whole overlay
canvas, then run the letter loop from the iterator's start. -/
noncomputable def redrawBackground (positions : List LetterPosition) (now : ℝ)
    (picks : ℕ → ℕ) (durs : ℕ → ℝ) (instances : List LetterInstance) (r : ℕ) :
    Except String TickOut :=
  redrawLoop positions now picks durs instances 0 [DrawCmd.clear] r

/-- Wall-clock time and random streams for one animation frame. -/
structure TickInput where
  now : ℝ
  picks : ℕ → ℕ
  durs : ℕ → ℝ

/-- Any number of consecutive animation frames: each
`requestAnimationFrame` callback runs `redrawBackground` once on the
current instance list. -/
noncomputable def runTicks (positions : List LetterPosition) :
    List TickInput → List LetterInstance → Except String (List LetterInstance)
  | [], instances => Except.ok instances
  | t :: rest, instances =>
    match redrawBackground positions t.now t.picks t.durs instances 0 with
    | Except.error e => Except.error e
    | Except.ok out => runTicks positions rest out.instances

/-! ### Easing-function lemmas -/

/-- Branch 1 of `easeInOutSine`: strictly before the start the result is 0. -/
lemma ease_eq_of_lt {timestamp start endT : ℝ} (h : timestamp < start) :
    easeInOutSine timestamp start endT = 0 := by
  simp [easeInOutSine, if_pos h]

/-- Branch 3 of `easeInOutSine`: strictly after the end of a non-inverted
interval the result is the unclamped half-period sine. -/
lemma ease_eq_of_gt {timestamp start endT : ℝ} (hse : start ≤ endT)
    (h : endT < timestamp) :
    easeInOutSine timestamp start endT =
      Real.sin ((timestamp - endT) / ((endT - start) / 2) * Real.pi) := by
  have h1 : ¬ timestamp < start := by linarith
  simp only [easeInOutSine, if_neg h1, if_pos h]

/-- Branch 2 of `easeInOutSine`: inside the interval the result is the
clamped raised-cosine ease. -/
lemma ease_eq_of_mem {timestamp start endT : ℝ} (h1 : start ≤ timestamp)
    (h2 : timestamp ≤ endT) :
    easeInOutSine timestamp start endT =
      max 0 (0.5 - 0.5 * Real.cos ((timestamp - start) / (endT - start) * Real.pi)) := by
  have hn1 : ¬ timestamp < start := not_lt.mpr h1
  have hn2 : ¬ timestamp > endT := not_lt.mpr h2
  simp only [easeInOutSine, if_neg hn1, if_neg hn2]

/-- Value of `easeInOutSine` exactly at the end of a nondegenerate
interval: progress 1, `max 0 (0.5 - 0.5*cos π) = 1`. -/
lemma ease_at_end {start endT : ℝ} (h : start < endT) :
    easeInOutSine endT start endT = 1 := by
  rw [ease_eq_of_mem (le_of_lt h) le_rfl]
  have hd : endT - start ≠ 0 := by linarith
  rw [div_self hd, one_mul, Real.cos_pi]
  norm_num

/-- Value of `easeInOutSine` at the midpoint of a nondegenerate interval:
progress 1/2, `max 0 (0.5 - 0.5*cos (π/2)) = 0.5`. -/
lemma ease_at_mid {start endT : ℝ} (h : start < endT) :
    easeInOutSine ((start + endT) / 2) start endT = 0.5 := by
  have h1 : start ≤ (start + endT) / 2 := by linarith
  have h2 : (start + endT) / 2 ≤ endT := by linarith
  rw [ease_eq_of_mem h1 h2]
  have hd : endT - start ≠ 0 := by linarith
  have hp : ((start + endT) / 2 - start) / (endT - start) = 1 / 2 := by
    field_simp
    ring
  rw [hp, one_div, inv_mul_eq_div, Real.cos_pi_div_two]
  norm_num

/-- The after-end branch reaches −1 three quarter-durations past the end. -/
lemma ease_attains_neg {start endT : ℝ} (h : start < endT) :
    easeInOutSine (endT + 3 / 4 * (endT - start)) start endT = -1 := by
  have hd : endT - start ≠ 0 := by linarith
  have hgt : endT < endT + 3 / 4 * (endT - start) := by nlinarith
  rw [ease_eq_of_gt (le_of_lt h) hgt]
  have hp : (endT + 3 / 4 * (endT - start) - endT) / ((endT - start) / 2) = 3 / 2 := by
    field_simp
    ring
  rw [hp]
  have h32 : (3 / 2 : ℝ) * Real.pi = Real.pi + Real.pi / 2 := by ring
  rw [h32, Real.sin_add, Real.sin_pi, Real.cos_pi, Real.sin_pi_div_two]
  ring

/-- C1 (amended): the easing function follows the three-branch policy of
the source, branch for branch — 0 strictly before the start; the clamped
raised-cosine ease inside the interval (so the exact end of a
nondegenerate interval gives 1 and its midpoint gives 0.5); the unclamped
half-period sine strictly after the end of a non-inverted interval, a
branch whose value can go negative (it reaches −1) for large overruns. -/
theorem easeInOutSine_policy :
    (∀ now start endT : ℝ, now < start → easeInOutSine now start endT = 0) ∧
    (∀ now start endT : ℝ, start ≤ now → now ≤ endT →
      easeInOutSine now start endT =
        max 0 (0.5 - 0.5 * Real.cos ((now - start) / (endT - start) * Real.pi))) ∧
    (∀ now start endT : ℝ, start ≤ endT → endT < now →
      easeInOutSine now start endT =
        Real.sin ((now - endT) / ((endT - start) / 2) * Real.pi)) ∧
    (∀ start endT : ℝ, start < endT →
      easeInOutSine endT start endT = 1 ∧
      easeInOutSine ((start + endT) / 2) start endT = 0.5 ∧
      ∃ now, endT < now ∧ easeInOutSine now start endT < 0) :=
  ⟨fun _ _ _ h => ease_eq_of_lt h,
   fun _ _ _ h1 h2 => ease_eq_of_mem h1 h2,
   fun _ _ _ hse h => ease_eq_of_gt hse h,
   fun start endT h =>
    ⟨ease_at_end h, ease_at_mid h,
     ⟨endT + 3 / 4 * (endT - start), by nlinarith,
      by rw [ease_attains_neg h]; norm_num⟩⟩⟩

/-- C1, counterexample to the claim as stated: the after-end branch can
never exceed 1 — already on the concrete interval (0, 1) no time past the
end produces a value above 1, because the branch is a real sine — and on
an inverted interval (start 4, end 0) the time 1 lies past the end yet the
function returns the before-start 0, not the claimed sine value −1. -/
theorem easeInOutSine_no_exceed_cex :
    (¬ ∃ now : ℝ, 1 < now ∧ 1 < easeInOutSine now 0 1) ∧
    easeInOutSine 1 4 0 = 0 ∧
    Real.sin (((1 : ℝ) - 0) / (((0 : ℝ) - 4) / 2) * Real.pi) = -1 := by
  refine ⟨?_, ease_eq_of_lt (by norm_num), ?_⟩
  · rintro ⟨now, h1, h2⟩
    rw [ease_eq_of_gt (by norm_num) h1] at h2
    have := Real.sin_le_one ((now - 1) / ((1 - 0) / 2) * Real.pi)
    linarith
  · have h : ((1 : ℝ) - 0) / (((0 : ℝ) - 4) / 2) * Real.pi = -(Real.pi / 2) := by
      ring_nf
    rw [h, Real.sin_neg, Real.sin_pi_div_two]

/-! ### Sampler lemmas -/

lemma resolve_nil (i : ℕ) : resolve [] i = i := rfl

lemma resolve_cons (taken : List (ℕ × ℕ)) (x v i : ℕ) :
    resolve ((x, v) :: taken) i = if i = x then v else resolve taken i := by
  by_cases h : i = x
  · simp [resolve, List.lookup, h]
  · have hfalse : (i == x) = false := by simpa using h
    simp [resolve, List.lookup, hfalse, h]

/-- Main invariant of the index-redirection loop: as long as every random
draw is below the current virtual length, the redirection map stays an
injection of the first `len` slots into `[0, L)` whose image avoids the
indices already collected, so the collected indices stay distinct, in
range, and one is added per draw. -/
lemma sampleIdxLoop_spec (L : ℕ) (rs : List ℕ) :
    ∀ (len : ℕ) (taken : List (ℕ × ℕ)) (acc : List ℕ),
      len ≤ L →
      (∀ i (h : i < rs.length), rs[i] < len - i) →
      (∀ i, i < len → resolve taken i < L) →
      (∀ i j, i < len → j < len → resolve taken i = resolve taken j → i = j) →
      (∀ i, i < len → resolve taken i ∉ acc) →
      acc.Nodup →
      (∀ a ∈ acc, a < L) →
      (sampleIdxLoop len taken rs acc).Nodup ∧
      (∀ a ∈ sampleIdxLoop len taken rs acc, a < L) ∧
      (sampleIdxLoop len taken rs acc).length = rs.length + acc.length := by
  induction rs with
  | nil =>
    intro len taken acc _ _ _ _ _ hnd hbnd
    exact ⟨hnd, hbnd, by simp [sampleIdxLoop]⟩
  | cons x rest ih =>
    intro len taken acc hlen hrs hb hinj hdis hnd hbnd
    have hx : x < len := by simpa using hrs 0 (by simp)
    have hl1 : len - 1 < len := by omega
    simp only [sampleIdxLoop]
    have hres := ih (len - 1) ((x, resolve taken (len - 1)) :: taken)
      (resolve taken x :: acc)
      (by omega)
      (by intro i hi
          have h2 := hrs (i + 1) (by simpa using hi)
          rw [List.getElem_cons_succ] at h2
          omega)
      (by intro i hi
          rw [resolve_cons]
          split
          · exact hb _ hl1
          · exact hb i (by omega))
      (by intro i j hi hj hij
          rw [resolve_cons, resolve_cons] at hij
          by_cases hix : i = x <;> by_cases hjx : j = x
          · omega
          · rw [if_pos hix, if_neg hjx] at hij
            have := hinj _ j hl1 (by omega) hij
            omega
          · rw [if_neg hix, if_pos hjx] at hij
            have := hinj i _ (by omega) hl1 hij
            omega
          · rw [if_neg hix, if_neg hjx] at hij
            exact hinj i j (by omega) (by omega) hij)
      (by intro i hi
          rw [resolve_cons]
          simp only [List.mem_cons, not_or]
          split
          · rename_i hix
            constructor
            · intro heq
              have := hinj _ x hl1 hx heq
              omega
            · exact hdis _ hl1
          · rename_i hix
            constructor
            · intro heq
              exact hix (hinj i x (by omega) hx heq)
            · exact hdis i (by omega))
      (List.nodup_cons.mpr ⟨hdis x hx, hnd⟩)
      (by intro a ha
          rcases List.mem_cons.mp ha with h | h
          · exact h ▸ hb x hx
          · exact hbnd a h)
    refine ⟨hres.1, hres.2.1, ?_⟩
    rw [hres.2.2]
    simp
    omega

/-- The element-level loop is the index-level loop read through the source
array. -/
lemma sampleLoop_eq_map (arr : List α) (dflt : α) (rs : List ℕ) :
    ∀ (len : ℕ) (taken : List (ℕ × ℕ)) (acc : List ℕ),
      sampleLoop arr dflt len taken rs (acc.map fun i => arr.getD i dflt) =
        (sampleIdxLoop len taken rs acc).map fun i => arr.getD i dflt := by
  induction rs with
  | nil => intro len taken acc; simp [sampleLoop, sampleIdxLoop]
  | cons x rest ih =>
    intro len taken acc
    simp only [sampleLoop, sampleIdxLoop]
    have hmap : arr.getD (resolve taken x) dflt ::
        (acc.map fun i => arr.getD i dflt) =
        (resolve taken x :: acc).map fun i => arr.getD i dflt := by simp
    rw [hmap, ih]

/-- C2: with a collection of length `L ≥ 1`, a count `n ≤ L`, and one
in-range random draw per iteration, `getRandomAmountFromArray` succeeds and
returns exactly `n` elements read off `n` pairwise-distinct source indices,
each below `L`, so every returned element is an element of the source array
(which is never mutated — the embedding is a pure function of it). -/
theorem getRandomAmountFromArray_distinct {α : Type} (arr : List α) (dflt : α)
    (n : ℕ) (rs : List ℕ) (hL : 1 ≤ arr.length) (hn : n ≤ arr.length)
    (hrs : rs.length = n)
    (hvalid : ∀ i (h : i < rs.length), rs[i] < arr.length - i) :
    ∃ out, getRandomAmountFromArray arr dflt n rs = Except.ok out ∧
      out.length = n ∧
      (∃ idxs : List ℕ, idxs.Nodup ∧ idxs.length = n ∧
        (∀ i ∈ idxs, i < arr.length) ∧
        out = idxs.map fun i => arr.getD i dflt) ∧
      ∀ a ∈ out, a ∈ arr := by
  have hspec := sampleIdxLoop_spec arr.length rs arr.length [] []
    le_rfl
    (by intro i hi; simpa using hvalid i hi)
    (by intro i hi; simpa [resolve_nil] using hi)
    (by intro i j _ _ hij; simpa [resolve_nil] using hij)
    (by intro i _; simp)
    List.nodup_nil
    (by intro a ha; simp at ha)
  have hout : sampleLoop arr dflt arr.length [] rs [] =
      (sampleIdxLoop arr.length [] rs []).map fun i => arr.getD i dflt := by
    simpa using sampleLoop_eq_map arr dflt rs arr.length [] []
  refine ⟨sampleLoop arr dflt arr.length [] rs [], ?_, ?_, ?_, ?_⟩
  · simp [getRandomAmountFromArray, not_lt.mpr hn]
  · rw [hout, List.length_map, hspec.2.2]
    simpa using hrs
  · exact ⟨sampleIdxLoop arr.length [] rs [], hspec.1,
      by rw [hspec.2.2]; simpa using hrs,
      hspec.2.1, hout⟩
  · intro a ha
    rw [hout] at ha
    rcases List.mem_map.mp ha with ⟨i, hi, hback⟩
    have hilt : i < arr.length := hspec.2.1 i hi
    rw [← hback, List.getD_eq_getElem arr dflt hilt]
    exact List.getElem_mem hilt

/-- C2, witness: sampling 2 of the 3-element array `[10, 20, 30]` with the
draw stream `[1, 1]` succeeds with 2 elements off distinct indices. -/
theorem getRandomAmountFromArray_distinct_witness :
    ∃ out, getRandomAmountFromArray [10, 20, 30] 0 2 [1, 1] = Except.ok out ∧
      out.length = 2 ∧
      (∃ idxs : List ℕ, idxs.Nodup ∧ idxs.length = 2 ∧
        (∀ i ∈ idxs, i < ([10, 20, 30] : List ℕ).length) ∧
        out = idxs.map fun i => ([10, 20, 30] : List ℕ).getD i 0) ∧
      ∀ a ∈ out, a ∈ ([10, 20, 30] : List ℕ) :=
  getRandomAmountFromArray_distinct [10, 20, 30] 0 2 [1, 1]
    (by decide) (by decide) (by decide) (by decide)

/-- C6: asked for more elements than the collection holds, the sampler
fails with the designated `AstroError` message and never returns a result
(no silent clamping to the collection's size). -/
theorem getRandomAmountFromArray_overdraw {α : Type} (arr : List α) (dflt : α)
    (n : ℕ) (rs : List ℕ) (h : arr.length < n) :
    getRandomAmountFromArray arr dflt n rs =
      Except.error "getRandomAmountFromArray: more elements taken than available" ∧
    ∀ out, getRandomAmountFromArray arr dflt n rs ≠ Except.ok out := by
  have heq : getRandomAmountFromArray arr dflt n rs =
      Except.error "getRandomAmountFromArray: more elements taken than available" := by
    simp [getRandomAmountFromArray, h]
  exact ⟨heq, fun out hok => by simp [heq] at hok⟩

/-- C6, witness: drawing 2 elements from a 1-element array fails with the
designated error. -/
theorem getRandomAmountFromArray_overdraw_witness :
    getRandomAmountFromArray [10] 0 2 [] =
      Except.error "getRandomAmountFromArray: more elements taken than available" ∧
    ∀ out, getRandomAmountFromArray [10] 0 2 [] ≠ Except.ok out :=
  getRandomAmountFromArray_overdraw [10] 0 2 [] (by decide)

/-! ### Grid-builder lemmas -/

/-- Length of a row-major double loop: `m` rows of `k` cells each. -/
lemma flatMap_range_map_length {α : Type} (f : ℕ → ℕ → α) (m k : ℕ) :
    ((List.range m).flatMap fun i => (List.range k).map (f i)).length = m * k := by
  simp [List.length_flatMap, Function.comp_def, List.map_const', List.sum_replicate,
    smul_eq_mul, mul_comm]

/-- Cell `(i, j)` of a row-major double loop sits at flat index
`i * k + j`. -/
lemma flatMap_range_map_getElem {α : Type} (f : ℕ → ℕ → α) (m k i j : ℕ)
    (hi : i < m) (hj : j < k) :
    ((List.range m).flatMap fun i => (List.range k).map (f i))[i * k + j]? =
      some (f i j) := by
  induction m with
  | zero => omega
  | succ m ih =>
    rw [List.range_succ, List.flatMap_append, List.flatMap_cons, List.flatMap_nil,
      List.append_nil]
    by_cases him : i < m
    · rw [List.getElem?_append_left, ih him]
      rw [flatMap_range_map_length]
      calc i * k + j < i * k + k := by omega
        _ = (i + 1) * k := by ring
        _ ≤ m * k := Nat.mul_le_mul_right k (by omega)
    · have him' : i = m := by omega
      subst him'
      rw [List.getElem?_append_right
        (by rw [flatMap_range_map_length]; exact Nat.le_add_right _ _)]
      rw [flatMap_range_map_length, Nat.add_sub_cancel_left, List.getElem?_map,
        List.getElem?_range hj, Option.map_some']

/-- C3: for every viewport and non-empty source text the grid has exactly
`ceil(H/35) * ceil(W/17)` cells, laid out row-major — the cell with row
index `i` and column index `j` sits at flat index `i * columns + j` with
position `(j*17, i*35)` and the cyclically indexed character — and on the
concrete 100×100 viewport this gives 6 columns, 3 rows and 18 cells. -/
theorem initLetterPositions_layout :
    (∀ (width height : ℕ) (text : List Char), text ≠ [] →
      (initLetterPositions width height text).length =
        jsCeilDiv height 35 * jsCeilDiv width 17 ∧
      ∀ i j : ℕ, i < jsCeilDiv height 35 → j < jsCeilDiv width 17 →
        (initLetterPositions width height text)[i * jsCeilDiv width 17 + j]? =
          some ⟨j * 17, i * 35, text.getD (j % text.length) ' '⟩) ∧
    jsCeilDiv 100 17 = 6 ∧ jsCeilDiv 100 35 = 3 ∧
    ∀ text : List Char, text ≠ [] →
      (initLetterPositions 100 100 text).length = 18 := by
  have hmain : ∀ (width height : ℕ) (text : List Char), text ≠ [] →
      (initLetterPositions width height text).length =
        jsCeilDiv height 35 * jsCeilDiv width 17 ∧
      ∀ i j : ℕ, i < jsCeilDiv height 35 → j < jsCeilDiv width 17 →
        (initLetterPositions width height text)[i * jsCeilDiv width 17 + j]? =
          some ⟨j * 17, i * 35, text.getD (j % text.length) ' '⟩ := by
    intro width height text _
    constructor
    · exact flatMap_range_map_length _ _ _
    · intro i j hi hj
      exact flatMap_range_map_getElem
        (fun i j => (⟨j * 17, i * 35, text.getD (j % text.length) ' '⟩ : LetterPosition))
        _ _ i j hi hj
  have h17 : jsCeilDiv 100 17 = 6 := by
    have h : (⌈(100 : ℚ) / 17⌉ : ℤ) = 6 := by
      rw [Int.ceil_eq_iff]
      norm_num
    simp [jsCeilDiv, h]
  have h35 : jsCeilDiv 100 35 = 3 := by
    have h : (⌈(100 : ℚ) / 35⌉ : ℤ) = 3 := by
      rw [Int.ceil_eq_iff]
      norm_num
    simp [jsCeilDiv, h]
  refine ⟨hmain, h17, h35, ?_⟩
  intro text htext
  rw [(hmain 100 100 text htext).1, h17, h35]

/-! ### Seeding lemmas -/

/-- The selection loop always returns one element per random draw. -/
lemma sampleLoop_length {α : Type} (arr : List α) (dflt : α) (rs : List ℕ) :
    ∀ (len : ℕ) (taken : List (ℕ × ℕ)) (acc : List α),
      (sampleLoop arr dflt len taken rs acc).length = rs.length + acc.length := by
  induction rs with
  | nil => intro _ _ _; simp [sampleLoop]
  | cons x rest ih =>
    intro len taken acc
    rw [sampleLoop, ih]
    simp
    omega

/-- A successful sampler call returns one element per draw, and (when every
draw is below the remaining virtual length) only elements of the source. -/
lemma getRandomAmountFromArray_mem {α : Type} (arr : List α) (dflt : α)
    (n : ℕ) (rs : List ℕ) (hn : n ≤ arr.length)
    (hvalid : ∀ i (h : i < rs.length), rs[i] < arr.length - i) :
    ∃ out, getRandomAmountFromArray arr dflt n rs = Except.ok out ∧
      out.length = rs.length ∧ ∀ a ∈ out, a ∈ arr := by
  have hspec := sampleIdxLoop_spec arr.length rs arr.length [] []
    le_rfl
    (by intro i hi; simpa using hvalid i hi)
    (by intro i hi; simpa [resolve_nil] using hi)
    (by intro i j _ _ hij; simpa [resolve_nil] using hij)
    (by intro i _; simp)
    List.nodup_nil
    (by intro a ha; simp at ha)
  have hout : sampleLoop arr dflt arr.length [] rs [] =
      (sampleIdxLoop arr.length [] rs []).map fun i => arr.getD i dflt := by
    simpa using sampleLoop_eq_map arr dflt rs arr.length [] []
  refine ⟨sampleLoop arr dflt arr.length [] rs [], ?_, ?_, ?_⟩
  · simp [getRandomAmountFromArray, not_lt.mpr hn]
  · rw [sampleLoop_length]
    simp
  · intro a ha
    rw [hout] at ha
    rcases List.mem_map.mp ha with ⟨i, hi, hback⟩
    have hilt : i < arr.length := hspec.2.1 i hi
    rw [← hback, List.getD_eq_getElem arr dflt hilt]
    exact List.getElem_mem hilt

/-- The seed target `round(rows * 0.75)` never exceeds the row count. -/
lemma jsRound_three_quarters_le (n : ℕ) : (jsRound ((n : ℚ) * 0.75)).toNat ≤ n := by
  rw [jsRound, Int.toNat_le]
  have h : ⌊(n : ℚ) * 0.75 + 1 / 2⌋ < (n : ℤ) + 1 := by
    rw [Int.floor_lt]
    push_cast
    nlinarith [Nat.cast_nonneg (α := ℚ) n]
  omega

/-- The seed target is bounded by the number of grid rows. -/
lemma seedTarget_le (height : ℕ) : seedTarget height ≤ jsCeilDiv height 35 :=
  jsRound_three_quarters_le _

/-- A viewport dimension of at least one pixel gives at least one grid line
in that direction. -/
lemma jsCeilDiv_pos {a : ℕ} (b : ℕ) (ha : 1 ≤ a) (hb : 1 ≤ b) :
    1 ≤ jsCeilDiv a b := by
  rw [jsCeilDiv]
  have hq : (0 : ℚ) < (a : ℚ) / (b : ℚ) := by
    apply div_pos
    · exact_mod_cast ha
    · exact_mod_cast hb
  have := Int.ceil_pos.mpr hq
  omega

/-- Membership of an animating letter's cell data in the grid: the
instance's position and character match some grid cell's. -/
def InGrid (inst : LetterInstance) (positions : List LetterPosition) : Prop :=
  ∃ cell ∈ positions, inst.x = cell.x ∧ inst.y = cell.y ∧ inst.letter = cell.letter

/-- The whole grid always has room for the seed target when the viewport
is at least one pixel wide. -/
lemma seedTarget_le_gridSize (width height : ℕ) (text : List Char)
    (hW : 1 ≤ width) :
    seedTarget height ≤ (initLetterPositions width height text).length := by
  rw [initLetterPositions, flatMap_range_map_length]
  calc seedTarget height ≤ jsCeilDiv height 35 := seedTarget_le _
    _ ≤ jsCeilDiv height 35 * jsCeilDiv width 17 :=
        Nat.le_mul_of_pos_right _ (jsCeilDiv_pos 17 hW (by norm_num))

/-- Explicit successful run of `initBackground` under a nonempty viewport
width: the sampler succeeds and the result's fields are spelled out. -/
lemma initBackground_eq (width height : ℕ) (text : List Char) (now : ℝ)
    (picks : ℕ → ℕ) (durs : ℕ → ℝ) (hW : 1 ≤ width) :
    ∃ randomLetters : List LetterPosition,
      getRandomAmountFromArray (initLetterPositions width height text)
        defaultLetterPosition (seedTarget height)
        ((List.range (seedTarget height)).map picks) =
        Except.ok randomLetters ∧
      initBackground width height text now picks durs = Except.ok
        { positions := initLetterPositions width height text
          instances := randomLetters.enum.map fun p =>
            ⟨p.2.x, p.2.y, p.2.letter, now,
              now + (LETTER_FADE_DURATION.1 +
                durs p.1 * (LETTER_FADE_DURATION.2 - LETTER_FADE_DURATION.1)) * 1000⟩
          draws := randomLetters.map fun l => DrawCmd.fill l.letter l.x l.y 0 0 } := by
  have htarget := seedTarget_le_gridSize width height text hW
  have hok : getRandomAmountFromArray (initLetterPositions width height text)
      defaultLetterPosition (seedTarget height)
      ((List.range (seedTarget height)).map picks) =
      Except.ok (sampleLoop (initLetterPositions width height text)
        defaultLetterPosition (initLetterPositions width height text).length []
        ((List.range (seedTarget height)).map picks) []) := by
    rw [getRandomAmountFromArray, if_neg (not_lt.mpr htarget)]
  refine ⟨_, hok, ?_⟩
  unfold initBackground
  rw [hok]

/-- Sampler successes seen by `initBackground` have one element per draw. -/
lemma initBackground_randomLetters_length {width height : ℕ} {text : List Char}
    {picks : ℕ → ℕ} {randomLetters : List LetterPosition}
    (hok : getRandomAmountFromArray (initLetterPositions width height text)
      defaultLetterPosition (seedTarget height)
      ((List.range (seedTarget height)).map picks) = Except.ok randomLetters) :
    randomLetters.length = seedTarget height := by
  rw [getRandomAmountFromArray] at hok
  by_cases hgt : seedTarget height > (initLetterPositions width height text).length
  · rw [if_pos hgt] at hok
    exact absurd hok (by simp)
  · rw [if_neg hgt] at hok
    have := congrArg List.length (Except.ok.inj hok)
    rw [sampleLoop_length] at this
    simpa using this.symm

/-- Count of instances seeded by a successful `initBackground`. -/
lemma initBackground_count (width height : ℕ) (text : List Char) (now : ℝ)
    (picks : ℕ → ℕ) (durs : ℕ → ℝ) (hW : 1 ≤ width) :
    ∃ ir, initBackground width height text now picks durs = Except.ok ir ∧
      ir.instances.length = seedTarget height := by
  obtain ⟨randomLetters, hok, hinit⟩ :=
    initBackground_eq width height text now picks durs hW
  refine ⟨_, hinit, ?_⟩
  simp [List.length_map, List.enum_length, initBackground_randomLetters_length hok]

/-- C7: whenever the viewport is at least one pixel wide, seeding creates
exactly `round(rows * 0.75)` fade instances (keyed to the row count `rows =
ceil(height/35)`, not to the total cell count), and at 10 rows that target
evaluates to exactly 8 — both as the formula and on a concrete 17×350
viewport (1 column, 10 rows). -/
theorem initBackground_seed_count :
    (∀ (width height : ℕ) (text : List Char) (now : ℝ) (picks : ℕ → ℕ)
      (durs : ℕ → ℝ), 1 ≤ width →
      ∃ ir, initBackground width height text now picks durs = Except.ok ir ∧
        ir.instances.length = (jsRound ((jsCeilDiv height 35 : ℚ) * 0.75)).toNat) ∧
    (jsRound ((10 : ℚ) * 0.75)).toNat = 8 ∧
    ∃ ir, initBackground 17 350 ['s', 'p', 'e', 'c', 't', 'r', 'e'] 0
        (fun _ => 0) (fun _ => 0) = Except.ok ir ∧ ir.instances.length = 8 := by
  have hround : (jsRound ((10 : ℚ) * 0.75)).toNat = 8 := by
    have h : jsRound ((10 : ℚ) * 0.75) = 8 := by
      rw [jsRound]
      norm_num
    rw [h]
    rfl
  refine ⟨?_, hround, ?_⟩
  · intro width height text now picks durs hW
    exact initBackground_count width height text now picks durs hW
  · obtain ⟨ir, hinit, hcount⟩ := initBackground_count 17 350
      ['s', 'p', 'e', 'c', 't', 'r', 'e'] 0 (fun _ => 0) (fun _ => 0) (by norm_num)
    refine ⟨ir, hinit, ?_⟩
    rw [hcount]
    have h350 : jsCeilDiv 350 35 = 10 := by
      have h : (⌈(350 : ℚ) / 35⌉ : ℤ) = 10 := by
        rw [Int.ceil_eq_iff]
        norm_num
      simp [jsCeilDiv, h]
    rw [seedTarget, h350]
    exact hround

/-! ### Frame-tick lemmas -/

/-- Sampling one element from a nonempty array yields exactly the element
at the drawn index. -/
lemma getRandomAmountFromArray_one {α : Type} (arr : List α) (dflt : α) (x : ℕ)
    (h : arr ≠ []) :
    getRandomAmountFromArray arr dflt 1 [x] = Except.ok [arr.getD x dflt] := by
  have hlen : 1 ≤ arr.length := List.length_pos.mpr h
  rw [getRandomAmountFromArray, if_neg (not_lt.mpr hlen)]
  simp [sampleLoop, resolve_nil]

/-- Loop exit: the iterator has run off the end of the (current) array. -/
lemma redrawLoop_done (positions : List LetterPosition) (now : ℝ)
    (picks : ℕ → ℕ) (durs : ℕ → ℝ) (instances : List LetterInstance)
    (k : ℕ) (draws : List DrawCmd) (r : ℕ) (h : ¬ k < instances.length) :
    redrawLoop positions now picks durs instances k draws r =
      Except.ok { instances := instances, draws := draws, rng := r } := by
  rw [redrawLoop.eq_def, dif_neg h]

/-- Loop step on a letter whose fadeout has not yet passed: `continue`. -/
lemma redrawLoop_skip (positions : List LetterPosition) (now : ℝ)
    (picks : ℕ → ℕ) (durs : ℕ → ℝ) (instances : List LetterInstance)
    (k : ℕ) (draws : List DrawCmd) (r : ℕ) (h : k < instances.length)
    (hf : instances[k].fadeout > now) :
    redrawLoop positions now picks durs instances k draws r =
      redrawLoop positions now picks durs instances (k + 1) draws r := by
  rw [redrawLoop.eq_def, dif_pos h, if_pos hf]

/-- Loop step on an expired letter that is not yet retired (or still has
positive alpha): it is drawn and the iterator moves on. -/
lemma redrawLoop_draw (positions : List LetterPosition) (now : ℝ)
    (picks : ℕ → ℕ) (durs : ℕ → ℝ) (instances : List LetterInstance)
    (k : ℕ) (draws : List DrawCmd) (r : ℕ) (h : k < instances.length)
    (hf : ¬ instances[k].fadeout > now)
    (hret : ¬ (easeInOutSine now instances[k].timestamp instances[k].fadeout ≤ 0 ∧
      now > instances[k].fadeout)) :
    redrawLoop positions now picks durs instances k draws r =
      redrawLoop positions now picks durs instances (k + 1)
        (draws ++ [DrawCmd.fill instances[k].letter instances[k].x instances[k].y
          (easeInOutSine now instances[k].timestamp instances[k].fadeout)
          (easeInOutSine now instances[k].timestamp instances[k].fadeout)]) r := by
  rw [redrawLoop.eq_def, dif_pos h, if_neg hf, if_neg hret]

/-- Loop step on a fully faded letter: splice it out, push a freshly
sampled replacement, draw the old letter one last time, move on. -/
lemma redrawLoop_retire (positions : List LetterPosition) (now : ℝ)
    (picks : ℕ → ℕ) (durs : ℕ → ℝ) (instances : List LetterInstance)
    (k : ℕ) (draws : List DrawCmd) (r : ℕ) (h : k < instances.length)
    (hf : ¬ instances[k].fadeout > now)
    (hret : easeInOutSine now instances[k].timestamp instances[k].fadeout ≤ 0 ∧
      now > instances[k].fadeout)
    (randomLetter : List LetterPosition)
    (hok : getRandomAmountFromArray positions defaultLetterPosition 1 [picks r] =
      Except.ok randomLetter) :
    redrawLoop positions now picks durs instances k draws r =
      redrawLoop positions now picks durs
        (instances.erase instances[k] ++
          [⟨(randomLetter.getD 0 defaultLetterPosition).x,
            (randomLetter.getD 0 defaultLetterPosition).y,
            (randomLetter.getD 0 defaultLetterPosition).letter, now,
            now + (LETTER_FADE_DURATION.1 +
              durs r * (LETTER_FADE_DURATION.2 - LETTER_FADE_DURATION.1)) * 1000⟩])
        (k + 1)
        (draws ++ [DrawCmd.fill instances[k].letter instances[k].x instances[k].y
          (easeInOutSine now instances[k].timestamp instances[k].fadeout)
          (easeInOutSine now instances[k].timestamp instances[k].fadeout)]) (r + 1) := by
  rw [redrawLoop.eq_def, dif_pos h, if_neg hf, if_pos hret, hok]

/-- Main invariant of the per-frame loop: it never fails over a nonempty
grid, the instance count is preserved exactly (each splice is paired with
one push), and — when every random pick is in range — membership of every
instance's cell data in the grid is preserved as well. -/
lemma redrawLoop_spec (positions : List LetterPosition) (now : ℝ)
    (picks : ℕ → ℕ) (durs : ℕ → ℝ) (hpos : positions ≠ []) :
    ∀ (n : ℕ) (instances : List LetterInstance) (k : ℕ) (draws : List DrawCmd)
      (r : ℕ), instances.length - k ≤ n →
    ∃ out : TickOut,
      redrawLoop positions now picks durs instances k draws r = Except.ok out ∧
      out.instances.length = instances.length ∧
      ((∀ i, picks i < positions.length) →
        (∀ inst ∈ instances, InGrid inst positions) →
        ∀ inst ∈ out.instances, InGrid inst positions) := by
  intro n
  induction n with
  | zero =>
    intro instances k draws r hn
    have hk : ¬ k < instances.length := by omega
    exact ⟨{ instances := instances, draws := draws, rng := r },
      redrawLoop_done positions now picks durs instances k draws r hk, rfl,
      fun _ hgrid => hgrid⟩
  | succ n ih =>
    intro instances k draws r hn
    by_cases hk : k < instances.length
    · by_cases hf : instances[k].fadeout > now
      · obtain ⟨out, heq, hlen, hsub⟩ := ih instances (k + 1) draws r (by omega)
        exact ⟨out, (redrawLoop_skip positions now picks durs instances k draws r
          hk hf).trans heq, hlen, hsub⟩
      · by_cases hret : easeInOutSine now instances[k].timestamp
            instances[k].fadeout ≤ 0 ∧ now > instances[k].fadeout
        · have hok := getRandomAmountFromArray_one positions defaultLetterPosition
            (picks r) hpos
          have hmem : instances[k] ∈ instances := List.getElem_mem hk
          have herase : (instances.erase instances[k]).length =
              instances.length - 1 := List.length_erase_of_mem hmem
          obtain ⟨out, heq, hlen, hsub⟩ := ih
            (instances.erase instances[k] ++
              [⟨(positions.getD (picks r) defaultLetterPosition).x,
                (positions.getD (picks r) defaultLetterPosition).y,
                (positions.getD (picks r) defaultLetterPosition).letter, now,
                now + (LETTER_FADE_DURATION.1 +
                  durs r * (LETTER_FADE_DURATION.2 - LETTER_FADE_DURATION.1)) * 1000⟩])
            (k + 1)
            (draws ++ [DrawCmd.fill instances[k].letter instances[k].x instances[k].y
              (easeInOutSine now instances[k].timestamp instances[k].fadeout)
              (easeInOutSine now instances[k].timestamp instances[k].fadeout)])
            (r + 1)
            (by simp only [List.length_append, herase, List.length_cons,
                  List.length_nil]
                omega)
          refine ⟨out, (redrawLoop_retire positions now picks durs instances k draws r
            hk hf hret _ hok).trans heq, ?_, ?_⟩
          · rw [hlen]
            simp only [List.length_append, herase, List.length_cons, List.length_nil]
            omega
          · intro hpicks hgrid
            refine hsub hpicks ?_
            intro inst hinst
            rcases List.mem_append.mp hinst with hin | hin
            · exact hgrid inst (List.mem_of_mem_erase hin)
            · have hlt : picks r < positions.length := hpicks r
              have hinst' : inst = ⟨(positions.getD (picks r) defaultLetterPosition).x,
                  (positions.getD (picks r) defaultLetterPosition).y,
                  (positions.getD (picks r) defaultLetterPosition).letter, now,
                  now + (LETTER_FADE_DURATION.1 +
                    durs r * (LETTER_FADE_DURATION.2 -
                      LETTER_FADE_DURATION.1)) * 1000⟩ := by
                simpa using hin
              refine ⟨positions.getD (picks r) defaultLetterPosition, ?_, ?_, ?_, ?_⟩
              · rw [List.getD_eq_getElem positions defaultLetterPosition hlt]
                exact List.getElem_mem hlt
              · rw [hinst']
              · rw [hinst']
              · rw [hinst']
        · obtain ⟨out, heq, hlen, hsub⟩ := ih instances (k + 1)
            (draws ++ [DrawCmd.fill instances[k].letter instances[k].x instances[k].y
              (easeInOutSine now instances[k].timestamp instances[k].fadeout)
              (easeInOutSine now instances[k].timestamp instances[k].fadeout)])
            r (by omega)
          exact ⟨out, (redrawLoop_draw positions now picks durs instances k draws r
            hk hf hret).trans heq, hlen, hsub⟩
    · exact ⟨{ instances := instances, draws := draws, rng := r },
        redrawLoop_done positions now picks durs instances k draws r hk, rfl,
        fun _ hgrid => hgrid⟩

/-- Ticks never fail over a nonempty grid, and each preserves the active
population size and (for in-range picks) the grid-membership invariant. -/
lemma runTicks_spec (positions : List LetterPosition) (hpos : positions ≠ [])
    (inputs : List TickInput) :
    ∀ instances : List LetterInstance,
      ∃ final, runTicks positions inputs instances = Except.ok final ∧
        final.length = instances.length ∧
        ((∀ t ∈ inputs, ∀ i, t.picks i < positions.length) →
          (∀ inst ∈ instances, InGrid inst positions) →
          ∀ inst ∈ final, InGrid inst positions) := by
  induction inputs with
  | nil =>
    intro instances
    exact ⟨instances, rfl, rfl, fun _ hgrid => hgrid⟩
  | cons t rest ih =>
    intro instances
    obtain ⟨out, heq, hlen, hsub⟩ := redrawLoop_spec positions t.now t.picks t.durs
      hpos instances.length instances 0 [DrawCmd.clear] 0 (by omega)
    obtain ⟨final, hfeq, hflen, hfsub⟩ := ih out.instances
    refine ⟨final, ?_, by rw [hflen, hlen], ?_⟩
    · rw [runTicks, redrawBackground, heq]
      exact hfeq
    · intro hpicks hgrid
      exact hfsub (fun u hu i => hpicks u (List.mem_cons_of_mem t hu) i)
        (hsub (fun i => hpicks t (List.mem_cons_self t rest) i) hgrid)

/-- C5: the per-frame tick leaves the number of active letter instances
unchanged — each retirement is paired with exactly one freshly sampled
replacement in the same tick — so after any number of ticks the active
list keeps its seeded size. -/
theorem redrawBackground_preserves_count (positions : List LetterPosition)
    (hpos : positions ≠ []) :
    (∀ (now : ℝ) (picks : ℕ → ℕ) (durs : ℕ → ℝ) (instances : List LetterInstance)
      (r : ℕ),
      ∃ out, redrawBackground positions now picks durs instances r = Except.ok out ∧
        out.instances.length = instances.length) ∧
    ∀ (inputs : List TickInput) (instances : List LetterInstance),
      ∃ final, runTicks positions inputs instances = Except.ok final ∧
        final.length = instances.length := by
  constructor
  · intro now picks durs instances r
    obtain ⟨out, heq, hlen, _⟩ := redrawLoop_spec positions now picks durs hpos
      instances.length instances 0 [DrawCmd.clear] r (by omega)
    exact ⟨out, heq, hlen⟩
  · intro inputs instances
    obtain ⟨final, heq, hlen, _⟩ := runTicks_spec positions hpos inputs instances
    exact ⟨final, heq, hlen⟩

/-- C5, witness: over the one-cell grid the tick and the tick iteration
preserve every instance count, here applied at a concrete state. -/
theorem redrawBackground_preserves_count_witness :
    (∀ (now : ℝ) (picks : ℕ → ℕ) (durs : ℕ → ℝ) (instances : List LetterInstance)
      (r : ℕ),
      ∃ out, redrawBackground [defaultLetterPosition] now picks durs instances r =
        Except.ok out ∧ out.instances.length = instances.length) ∧
    ∀ (inputs : List TickInput) (instances : List LetterInstance),
      ∃ final, runTicks [defaultLetterPosition] inputs instances = Except.ok final ∧
        final.length = instances.length :=
  redrawBackground_preserves_count [defaultLetterPosition] (by simp)

/-- Trace of a tick in which no letter satisfies the retirement condition:
the instance list survives unchanged and, in list order, exactly the
letters whose `fadeout` is not strictly in the future are drawn, each with
its eased alpha as both fill and shadow intensity. -/
lemma redrawLoop_no_retire (positions : List LetterPosition) (now : ℝ)
    (picks : ℕ → ℕ) (durs : ℕ → ℝ) :
    ∀ (n : ℕ) (instances : List LetterInstance) (k : ℕ) (draws : List DrawCmd)
      (r : ℕ), instances.length - k ≤ n →
      (∀ inst ∈ instances,
        ¬ (easeInOutSine now inst.timestamp inst.fadeout ≤ 0 ∧ now > inst.fadeout)) →
      redrawLoop positions now picks durs instances k draws r =
        Except.ok
          { instances := instances
            draws := draws ++ ((instances.drop k).filter fun inst =>
              decide (inst.fadeout ≤ now)).map fun inst =>
                DrawCmd.fill inst.letter inst.x inst.y
                  (easeInOutSine now inst.timestamp inst.fadeout)
                  (easeInOutSine now inst.timestamp inst.fadeout)
            rng := r } := by
  intro n
  induction n with
  | zero =>
    intro instances k draws r hn _
    have hk : ¬ k < instances.length := by omega
    rw [redrawLoop_done positions now picks durs instances k draws r hk,
      List.drop_eq_nil_of_le (by omega)]
    simp
  | succ n ih =>
    intro instances k draws r hn hnr
    by_cases hk : k < instances.length
    · have hdrop : instances.drop k = instances[k] :: instances.drop (k + 1) :=
        List.drop_eq_getElem_cons hk
      by_cases hf : instances[k].fadeout > now
      · rw [redrawLoop_skip positions now picks durs instances k draws r hk hf,
          ih instances (k + 1) draws r (by omega) hnr, hdrop, List.filter_cons,
          if_neg (by simp [decide_eq_false (not_le.mpr hf)])]
      · have hret := hnr instances[k] (List.getElem_mem hk)
        rw [redrawLoop_draw positions now picks durs instances k draws r hk hf hret,
          ih instances (k + 1) _ r (by omega) hnr, hdrop, List.filter_cons,
          if_pos (by simp [decide_eq_true (not_lt.mp hf)]), List.map_cons,
          List.append_cons]
        simp [List.append_assoc]
    · rw [redrawLoop_done positions now picks durs instances k draws r hk,
        List.drop_eq_nil_of_le (by omega)]
      simp

/-- C4 (amended): a tick with no retirement first clears the surface and
then draws exactly the active instances whose `fadeout` is not strictly in
the future, in list order, each with `alpha = ease(now, timestamp,
fadeout)` as both fill and glow-shadow intensity; instances whose fadeout
has not yet passed are skipped without computing an alpha or drawing, and
the active list is returned unchanged. -/
theorem redrawBackground_draw_policy (positions : List LetterPosition) (now : ℝ)
    (picks : ℕ → ℕ) (durs : ℕ → ℝ) (instances : List LetterInstance) (r : ℕ)
    (hnoretire : ∀ inst ∈ instances,
      ¬ (easeInOutSine now inst.timestamp inst.fadeout ≤ 0 ∧ now > inst.fadeout)) :
    redrawBackground positions now picks durs instances r =
      Except.ok
        { instances := instances
          draws := DrawCmd.clear :: (instances.filter fun inst =>
            decide (inst.fadeout ≤ now)).map fun inst =>
              DrawCmd.fill inst.letter inst.x inst.y
                (easeInOutSine now inst.timestamp inst.fadeout)
                (easeInOutSine now inst.timestamp inst.fadeout)
          rng := r } := by
  rw [redrawBackground, redrawLoop_no_retire positions now picks durs
    instances.length instances 0 [DrawCmd.clear] r (by omega) hnoretire]
  simp

/-- C4, witness: a tick over one not-yet-expired and one just-expiring
letter draws exactly the expiring one. -/
theorem redrawBackground_draw_policy_witness :
    redrawBackground [defaultLetterPosition] 1000 (fun _ => 0) (fun _ => 0)
      [⟨3, 5, 'a', 0, 2000⟩, ⟨4, 6, 'b', 0, 1000⟩] 0 =
      Except.ok
        { instances := [⟨3, 5, 'a', 0, 2000⟩, ⟨4, 6, 'b', 0, 1000⟩]
          draws := DrawCmd.clear ::
            (([⟨3, 5, 'a', 0, 2000⟩, ⟨4, 6, 'b', 0, 1000⟩] :
              List LetterInstance).filter fun inst =>
              decide (inst.fadeout ≤ 1000)).map fun inst =>
                DrawCmd.fill inst.letter inst.x inst.y
                  (easeInOutSine 1000 inst.timestamp inst.fadeout)
                  (easeInOutSine 1000 inst.timestamp inst.fadeout)
          rng := 0 } := by
  apply redrawBackground_draw_policy
  intro inst hinst
  rcases List.mem_cons.mp hinst with h | h
  · subst h
    rintro ⟨_, hgt⟩
    norm_num at hgt
  · rcases List.mem_cons.mp h with h2 | h2
    · subst h2
      rintro ⟨_, hgt⟩
      norm_num at hgt
    · simp at h2

/-- C4, counterexample to the claim as stated: an active instance whose
fadeout timestamp has not yet passed (`fadeout > now`) is skipped outright
by the tick — no alpha is computed and nothing is drawn for it, the trace
being just the canvas clear. -/
theorem redrawBackground_skips_pending_cex :
    redrawBackground [defaultLetterPosition] 1000 (fun _ => 0) (fun _ => 0)
      [⟨3, 5, 'a', 0, 2000⟩] 0 =
      Except.ok
        { instances := [⟨3, 5, 'a', 0, 2000⟩]
          draws := [DrawCmd.clear]
          rng := 0 } ∧
    ∀ d ∈ [DrawCmd.clear], ∀ a : ℝ, d ≠ DrawCmd.fill 'a' 3 5 a a := by
  constructor
  · rw [redrawBackground,
      redrawLoop_skip _ _ _ _ _ _ _ _ (by norm_num) (by norm_num),
      redrawLoop_done _ _ _ _ _ _ _ _ (by norm_num)]
  · intro d hd a
    simp only [List.mem_singleton] at hd
    subst hd
    simp

/-- Traversal of a retirement-free stretch of the loop: while none of the
letters at indices `[k, m)` meets the retirement condition, the iterator
walks from `k` to `m` without touching the instance list or the random
streams, only appending draw commands. -/
lemma redrawLoop_prefix (positions : List LetterPosition) (now : ℝ)
    (picks : ℕ → ℕ) (durs : ℕ → ℝ) (instances : List LetterInstance) (m : ℕ)
    (hml : m ≤ instances.length)
    (hnr : ∀ j (hj : j < instances.length), j < m →
      ¬ (easeInOutSine now instances[j].timestamp instances[j].fadeout ≤ 0 ∧
         now > instances[j].fadeout)) :
    ∀ (n k : ℕ) (draws : List DrawCmd) (r : ℕ), m - k ≤ n → k ≤ m →
      ∃ ds, redrawLoop positions now picks durs instances k draws r =
        redrawLoop positions now picks durs instances m (draws ++ ds) r := by
  intro n
  induction n with
  | zero =>
    intro k draws r hn hkm
    have heq : k = m := by omega
    subst heq
    exact ⟨[], by rw [List.append_nil]⟩
  | succ n ih =>
    intro k draws r hn hkm
    by_cases hkm2 : k = m
    · subst hkm2
      exact ⟨[], by rw [List.append_nil]⟩
    · have hk : k < instances.length := by omega
      by_cases hfade : instances[k].fadeout > now
      · obtain ⟨ds, hds⟩ := ih (k + 1) draws r (by omega) (by omega)
        exact ⟨ds, (redrawLoop_skip positions now picks durs instances k draws r
          hk hfade).trans hds⟩
      · have hret := hnr k hk (by omega)
        obtain ⟨ds, hds⟩ := ih (k + 1)
          (draws ++ [DrawCmd.fill instances[k].letter instances[k].x instances[k].y
            (easeInOutSine now instances[k].timestamp instances[k].fadeout)
            (easeInOutSine now instances[k].timestamp instances[k].fadeout)])
          r (by omega) (by omega)
        refine ⟨DrawCmd.fill instances[k].letter instances[k].x instances[k].y
            (easeInOutSine now instances[k].timestamp instances[k].fadeout)
            (easeInOutSine now instances[k].timestamp instances[k].fadeout) :: ds, ?_⟩
        rw [redrawLoop_draw positions now picks durs instances k draws r
          hk hfade hret, hds]
        simp [List.append_assoc]

/-- Remainder of a tick never loses a letter whose fadeout has not passed:
every erase removes (the first occurrence of) a letter with
`now > fadeout`, so a value with `¬ now > fadeout` always survives to the
returned list, and draw commands are only ever appended. -/
lemma redrawLoop_keeps (positions : List LetterPosition) (now : ℝ)
    (picks : ℕ → ℕ) (durs : ℕ → ℝ) (hpos : positions ≠ []) :
    ∀ (n : ℕ) (instances : List LetterInstance) (k : ℕ) (draws : List DrawCmd)
      (r : ℕ), instances.length - k ≤ n →
      ∃ out : TickOut,
        redrawLoop positions now picks durs instances k draws r = Except.ok out ∧
        (∃ ds, out.draws = draws ++ ds) ∧
        ∀ x ∈ instances, ¬ now > x.fadeout → x ∈ out.instances := by
  intro n
  induction n with
  | zero =>
    intro instances k draws r hn
    have hk : ¬ k < instances.length := by omega
    exact ⟨{ instances := instances, draws := draws, rng := r },
      redrawLoop_done positions now picks durs instances k draws r hk,
      ⟨[], (List.append_nil draws).symm⟩, fun x hx _ => hx⟩
  | succ n ih =>
    intro instances k draws r hn
    by_cases hk : k < instances.length
    · by_cases hfade : instances[k].fadeout > now
      · obtain ⟨out, heq, hds, hkeep⟩ := ih instances (k + 1) draws r (by omega)
        exact ⟨out, (redrawLoop_skip positions now picks durs instances k draws r
          hk hfade).trans heq, hds, hkeep⟩
      · by_cases hret : easeInOutSine now instances[k].timestamp
            instances[k].fadeout ≤ 0 ∧ now > instances[k].fadeout
        · have hok := getRandomAmountFromArray_one positions defaultLetterPosition
            (picks r) hpos
          have hmem : instances[k] ∈ instances := List.getElem_mem hk
          have herase : (instances.erase instances[k]).length =
              instances.length - 1 := List.length_erase_of_mem hmem
          obtain ⟨out, heq, hds, hkeep⟩ := ih
            (instances.erase instances[k] ++
              [⟨(positions.getD (picks r) defaultLetterPosition).x,
                (positions.getD (picks r) defaultLetterPosition).y,
                (positions.getD (picks r) defaultLetterPosition).letter, now,
                now + (LETTER_FADE_DURATION.1 +
                  durs r * (LETTER_FADE_DURATION.2 - LETTER_FADE_DURATION.1)) * 1000⟩])
            (k + 1)
            (draws ++ [DrawCmd.fill instances[k].letter instances[k].x instances[k].y
              (easeInOutSine now instances[k].timestamp instances[k].fadeout)
              (easeInOutSine now instances[k].timestamp instances[k].fadeout)])
            (r + 1)
            (by simp only [List.length_append, herase, List.length_cons,
                  List.length_nil]
                omega)
          refine ⟨out, (redrawLoop_retire positions now picks durs instances k draws r
            hk hfade hret _ hok).trans heq, ?_, ?_⟩
          · obtain ⟨ds, hds'⟩ := hds
            exact ⟨DrawCmd.fill instances[k].letter instances[k].x instances[k].y
                (easeInOutSine now instances[k].timestamp instances[k].fadeout)
                (easeInOutSine now instances[k].timestamp instances[k].fadeout) :: ds,
              by rw [hds']; simp [List.append_assoc]⟩
          · intro x hx hxf
            have hne : x ≠ instances[k] := by
              intro hxeq
              exact hxf (hxeq ▸ hret.2)
            exact hkeep x (List.mem_append_left _
              ((List.mem_erase_of_ne hne).mpr hx)) hxf
        · obtain ⟨out, heq, hds, hkeep⟩ := ih instances (k + 1)
            (draws ++ [DrawCmd.fill instances[k].letter instances[k].x instances[k].y
              (easeInOutSine now instances[k].timestamp instances[k].fadeout)
              (easeInOutSine now instances[k].timestamp instances[k].fadeout)])
            r (by omega)
          obtain ⟨ds, hds'⟩ := hds
          exact ⟨out, (redrawLoop_draw positions now picks durs instances k draws r
            hk hfade hret).trans heq,
            ⟨DrawCmd.fill instances[k].letter instances[k].x instances[k].y
                (easeInOutSine now instances[k].timestamp instances[k].fadeout)
                (easeInOutSine now instances[k].timestamp instances[k].fadeout) :: ds,
              by rw [hds']; simp [List.append_assoc]⟩, hkeep⟩
    · exact ⟨{ instances := instances, draws := draws, rng := r },
        redrawLoop_done positions now picks durs instances k draws r hk,
        ⟨[], (List.append_nil draws).symm⟩, fun x hx _ => hx⟩

/-- C10 (amended): the letter at iteration slot `m` whose fadeout equals
the tick's time exactly is not rejected by the skip guard (which needs
`fadeout > now` strictly), its alpha is the in-interval ease value,
exactly 1, and it does not meet the retirement condition (which needs
`now > fadeout` strictly); provided no instance before it in the iteration
is retired in this tick (an earlier retirement's splice would shift it out
of the live iteration), it is drawn at full opacity 1 and remains in the
active list — later retirements in the same tick cannot evict it, since
every retired letter has `now > fadeout`. -/
theorem tick_at_exact_fadeout (positions : List LetterPosition) (now : ℝ)
    (picks : ℕ → ℕ) (durs : ℕ → ℝ) (instances : List LetterInstance) (r : ℕ)
    (m : ℕ) (hm : m < instances.length)
    (hf : instances[m].fadeout = now)
    (ht : instances[m].timestamp < instances[m].fadeout) :
    ¬ instances[m].fadeout > now ∧
    easeInOutSine now instances[m].timestamp instances[m].fadeout = 1 ∧
    ¬ (easeInOutSine now instances[m].timestamp instances[m].fadeout ≤ 0 ∧
       now > instances[m].fadeout) ∧
    (positions ≠ [] →
      (∀ j (hj : j < m),
        ¬ (easeInOutSine now instances[j].timestamp instances[j].fadeout ≤ 0 ∧
           now > instances[j].fadeout)) →
      ∃ out, redrawBackground positions now picks durs instances r = Except.ok out ∧
        DrawCmd.fill instances[m].letter instances[m].x instances[m].y 1 1 ∈
          out.draws ∧
        instances[m] ∈ out.instances) := by
  have hnow : instances[m].timestamp < now := hf ▸ ht
  have hease : easeInOutSine now instances[m].timestamp instances[m].fadeout = 1 := by
    rw [hf]
    exact ease_at_end hnow
  have hguard : ¬ instances[m].fadeout > now := by
    rw [hf]
    exact lt_irrefl now
  have hretm : ¬ (easeInOutSine now instances[m].timestamp instances[m].fadeout ≤ 0 ∧
      now > instances[m].fadeout) := by
    rintro ⟨hle, _⟩
    rw [hease] at hle
    norm_num at hle
  refine ⟨hguard, hease, hretm, ?_⟩
  intro hpos hbefore
  obtain ⟨ds0, hpre⟩ := redrawLoop_prefix positions now picks durs instances m
    (le_of_lt hm) (fun j _ hjm => hbefore j hjm) m 0 [DrawCmd.clear] r
    (by omega) (by omega)
  have hstep := redrawLoop_draw positions now picks durs instances m
    ([DrawCmd.clear] ++ ds0) r hm hguard hretm
  rw [hease] at hstep
  obtain ⟨out, heq, ⟨ds1, hds1⟩, hkeep⟩ := redrawLoop_keeps positions now picks durs
    hpos instances.length instances (m + 1)
    (([DrawCmd.clear] ++ ds0) ++
      [DrawCmd.fill instances[m].letter instances[m].x instances[m].y 1 1])
    r (by omega)
  refine ⟨out, ?_, ?_, ?_⟩
  · rw [redrawBackground, hpre, hstep]
    exact heq
  · rw [hds1]
    exact List.mem_append_left _ (List.mem_append_right _ (by simp))
  · exact hkeep instances[m] (List.getElem_mem hm)
      (by rw [hf]; exact lt_irrefl now)

/-- C10 (amended), witness: the single instance `⟨3, 5, 'b', 0, 1000⟩` at
tick time 1000 — its fadeout equals now, and nothing precedes it in the
iteration — passes the guard, eases to exactly 1, escapes retirement, is
drawn at opacity 1 and stays active. -/
theorem tick_at_exact_fadeout_witness :
    ¬ (⟨3, 5, 'b', 0, 1000⟩ : LetterInstance).fadeout > 1000 ∧
    easeInOutSine 1000 (⟨3, 5, 'b', 0, 1000⟩ : LetterInstance).timestamp
      (⟨3, 5, 'b', 0, 1000⟩ : LetterInstance).fadeout = 1 ∧
    ¬ (easeInOutSine 1000 (⟨3, 5, 'b', 0, 1000⟩ : LetterInstance).timestamp
        (⟨3, 5, 'b', 0, 1000⟩ : LetterInstance).fadeout ≤ 0 ∧
      (1000 : ℝ) > (⟨3, 5, 'b', 0, 1000⟩ : LetterInstance).fadeout) ∧
    ∃ out, redrawBackground [defaultLetterPosition] 1000 (fun _ => 0) (fun _ => 0)
        [⟨3, 5, 'b', 0, 1000⟩] 0 = Except.ok out ∧
      DrawCmd.fill 'b' 3 5 1 1 ∈ out.draws ∧
      (⟨3, 5, 'b', 0, 1000⟩ : LetterInstance) ∈ out.instances := by
  have h := tick_at_exact_fadeout [defaultLetterPosition] 1000 (fun _ => 0)
    (fun _ => 0) [⟨3, 5, 'b', 0, 1000⟩] 0 0 (by norm_num) (by norm_num) (by norm_num)
  exact ⟨h.1, h.2.1, h.2.2.1, h.2.2.2 (by simp) (fun j hj => by omega)⟩

/-- C10, counterexample to the claim as stated: with `A = ⟨0,0,'a',0,500⟩`
retiring at `now = 1000` just before `B = ⟨3,5,'b',0,1000⟩` (whose fadeout
equals now exactly), the splice shifts `B` one slot left and the live
iterator steps over it: the tick's trace holds no fill for `B` at any
alpha, let alone at opacity 1. -/
theorem tick_at_exact_fadeout_cex :
    redrawBackground [⟨7, 9, 'p'⟩] 1000 (fun _ => 0) (fun _ => 0)
      [⟨0, 0, 'a', 0, 500⟩, ⟨3, 5, 'b', 0, 1000⟩] 0 =
      Except.ok
        { instances := [⟨3, 5, 'b', 0, 1000⟩, ⟨7, 9, 'p', 1000, 3000⟩]
          draws := [DrawCmd.clear, DrawCmd.fill 'a' 0 0 0 0]
          rng := 1 } ∧
    ∀ a : ℝ, DrawCmd.fill 'b' 3 5 a a ∉
      [DrawCmd.clear, DrawCmd.fill 'a' 0 0 0 0] := by
  constructor
  · have hease : easeInOutSine 1000 0 500 = 0 := by
      have h2 : ((1000 : ℝ) - 500) / (((500 : ℝ) - 0) / 2) = 2 := by norm_num
      rw [ease_eq_of_gt (by norm_num) (by norm_num), h2, Real.sin_two_pi]
    rw [redrawBackground,
      redrawLoop_retire _ _ _ _ _ _ _ _ (by norm_num)
        (by simp only [List.getElem_cons_zero]; norm_num)
        (by simp only [List.getElem_cons_zero]
            exact ⟨le_of_eq hease, by norm_num⟩)
        _ (getRandomAmountFromArray_one _ defaultLetterPosition 0 (by simp))]
    simp only [List.getElem_cons_zero, List.erase_cons_head, List.getD]
    norm_num [LETTER_FADE_DURATION, hease]
    rw [redrawLoop_skip _ _ _ _ _ _ _ _ (by norm_num)
        (by simp only [List.getElem_cons_succ, List.getElem_cons_zero]; norm_num),
      redrawLoop_done _ _ _ _ _ _ _ _ (by norm_num)]
  · intro a
    simp

/-! ### Steady-state and resize lemmas -/

/-- C8 (amended): after seeding, and still after any number of ticks, every
active instance carries the position and character of some cell of the
current grid, and the active count is exactly `seedTarget height =
round(0.75 × rows)` — the `toFixed`-style rounding of the source, not a
ceiling. -/
theorem active_instances_subset_and_size (width height : ℕ) (text : List Char)
    (now : ℝ) (picks : ℕ → ℕ) (durs : ℕ → ℝ) (hW : 1 ≤ width) (hH : 1 ≤ height)
    (hpicks : ∀ i, i < seedTarget height →
      picks i < (initLetterPositions width height text).length - i) :
    ∃ ir, initBackground width height text now picks durs = Except.ok ir ∧
      ir.positions = initLetterPositions width height text ∧
      ir.instances.length = seedTarget height ∧
      (∀ inst ∈ ir.instances, InGrid inst ir.positions) ∧
      ∀ inputs : List TickInput,
        (∀ t ∈ inputs, ∀ i, t.picks i < ir.positions.length) →
        ∃ final, runTicks ir.positions inputs ir.instances = Except.ok final ∧
          final.length = seedTarget height ∧
          ∀ inst ∈ final, InGrid inst ir.positions := by
  obtain ⟨randomLetters, hok, hinit⟩ :=
    initBackground_eq width height text now picks durs hW
  have hsub : ∀ a ∈ randomLetters, a ∈ initLetterPositions width height text := by
    obtain ⟨out2, hok2, _, hmem2⟩ := getRandomAmountFromArray_mem
      (initLetterPositions width height text) defaultLetterPosition
      (seedTarget height) ((List.range (seedTarget height)).map picks)
      (seedTarget_le_gridSize width height text hW)
      (by intro i hi
          rw [List.getElem_map, List.getElem_range]
          exact hpicks i (by simpa using hi))
    have : out2 = randomLetters := Except.ok.inj (hok2.symm.trans hok)
    exact this ▸ hmem2
  have hcount : randomLetters.length = seedTarget height :=
    initBackground_randomLetters_length hok
  have hpos : initLetterPositions width height text ≠ [] := by
    rw [← List.length_pos, initLetterPositions, flatMap_range_map_length]
    have h1 := jsCeilDiv_pos 35 hH (by norm_num)
    have h2 := jsCeilDiv_pos 17 hW (by norm_num)
    exact Nat.mul_pos (by omega) (by omega)
  refine ⟨_, hinit, rfl, ?_, ?_, ?_⟩
  · simp [List.length_map, List.enum_length, hcount]
  · intro inst hinst
    rcases List.mem_map.mp hinst with ⟨p, hp, hpeq⟩
    obtain ⟨hlt, hval⟩ := List.mem_enum hp
    refine ⟨p.2, hsub p.2 (hval ▸ List.getElem_mem hlt), ?_, ?_, ?_⟩
    · rw [← hpeq]
    · rw [← hpeq]
    · rw [← hpeq]
  · intro inputs hinputs
    obtain ⟨final, hfeq, hflen, hfsub⟩ := runTicks_spec
      (initLetterPositions width height text) hpos inputs
      (randomLetters.enum.map fun p =>
        ⟨p.2.x, p.2.y, p.2.letter, now,
          now + (LETTER_FADE_DURATION.1 +
            durs p.1 * (LETTER_FADE_DURATION.2 - LETTER_FADE_DURATION.1)) * 1000⟩)
    refine ⟨final, hfeq, ?_, ?_⟩
    · rw [hflen]
      simp [List.length_map, List.enum_length, hcount]
    · refine hfsub hinputs ?_
      intro inst hinst
      rcases List.mem_map.mp hinst with ⟨p, hp, hpeq⟩
      obtain ⟨hlt, hval⟩ := List.mem_enum hp
      refine ⟨p.2, hsub p.2 (hval ▸ List.getElem_mem hlt), ?_, ?_, ?_⟩
      · rw [← hpeq]
      · rw [← hpeq]
      · rw [← hpeq]

/-- C8, witness: the 17×35 viewport (1 column, 1 row, 1 seeded instance)
keeps its seeded count and grid membership through arbitrary tick runs. -/
theorem active_instances_subset_and_size_witness :
    ∃ ir, initBackground 17 35 ['s'] 0 (fun _ => 0) (fun _ => 0) =
        Except.ok ir ∧
      ir.positions = initLetterPositions 17 35 ['s'] ∧
      ir.instances.length = seedTarget 35 ∧
      (∀ inst ∈ ir.instances, InGrid inst ir.positions) ∧
      ∀ inputs : List TickInput,
        (∀ t ∈ inputs, ∀ i, t.picks i < ir.positions.length) →
        ∃ final, runTicks ir.positions inputs ir.instances = Except.ok final ∧
          final.length = seedTarget 35 ∧
          ∀ inst ∈ final, InGrid inst ir.positions :=
  active_instances_subset_and_size 17 35 ['s'] 0 (fun _ => 0) (fun _ => 0)
    (by norm_num) (by norm_num)
    (by intro i hi
        have h35 : jsCeilDiv 35 35 = 1 := by
          have h : (⌈(35 : ℚ) / 35⌉ : ℤ) = 1 := by
            rw [Int.ceil_eq_iff]
            norm_num
          simp [jsCeilDiv, h]
        have htgt : seedTarget 35 = 1 := by
          rw [seedTarget, h35]
          have h : jsRound ((1 : ℚ) * 0.75) = 1 := by
            rw [jsRound]
            norm_num
          rw [Nat.cast_one, h]
          rfl
        have h17 : jsCeilDiv 17 17 = 1 := by
          have h : (⌈(17 : ℚ) / 17⌉ : ℤ) = 1 := by
            rw [Int.ceil_eq_iff]
            norm_num
          simp [jsCeilDiv, h]
        have hlen : (initLetterPositions 17 35 ['s']).length = 1 := by
          rw [initLetterPositions, flatMap_range_map_length, h35, h17]
        rw [htgt] at hi
        interval_cases i
        rw [hlen]
        norm_num)

/-- C8, counterexample to the claim as stated: at 3 grid rows (viewport
1×100) the seeded active count is `round(3 × 0.75) = 2`, while the claim's
`⌈3 × 0.75⌉` is 3. -/
theorem active_size_ceil_cex :
    (∃ ir, initBackground 1 100 ['s'] 0 (fun _ => 0) (fun _ => 0) =
        Except.ok ir ∧ ir.instances.length = 2) ∧
    (⌈(jsCeilDiv 100 35 : ℚ) * 0.75⌉ : ℤ) = 3 := by
  have h35 : jsCeilDiv 100 35 = 3 := by
    have h : (⌈(100 : ℚ) / 35⌉ : ℤ) = 3 := by
      rw [Int.ceil_eq_iff]
      norm_num
    simp [jsCeilDiv, h]
  constructor
  · obtain ⟨ir, hinit, hcount⟩ := initBackground_count 1 100 ['s'] 0 (fun _ => 0)
      (fun _ => 0) (by norm_num)
    refine ⟨ir, hinit, ?_⟩
    rw [hcount, seedTarget, h35]
    have h : jsRound ((3 : ℚ) * 0.75) = 2 := by
      rw [jsRound]
      norm_num
    rw [Nat.cast_ofNat, h]
    rfl
  · rw [h35]
    rw [Int.ceil_eq_iff]
    norm_num

/-- C9: a resize discards the previous grid and every previous fade
instance and rebuilds both from scratch, so (resizes happening strictly
after the old instances were stamped) no pre-resize instance survives into
the new active list, and the rebuilt grid has exactly the new viewport's
`rows × columns` cells. -/
theorem resizeBackground_fresh (oldPositions : List LetterPosition)
    (oldInstances : List LetterInstance) (newWidth newHeight : ℕ)
    (text : List Char) (now : ℝ) (picks : ℕ → ℕ) (durs : ℕ → ℝ)
    (hW : 1 ≤ newWidth)
    (hold : ∀ inst ∈ oldInstances, inst.timestamp < now) :
    ∃ nr, resizeBackground oldPositions oldInstances newWidth newHeight text now
        picks durs = Except.ok nr ∧
      (∀ inst ∈ nr.instances, inst.timestamp = now) ∧
      (∀ inst ∈ nr.instances, inst ∉ oldInstances) ∧
      nr.positions.length = jsCeilDiv newHeight 35 * jsCeilDiv newWidth 17 := by
  obtain ⟨randomLetters, hok, hinit⟩ :=
    initBackground_eq newWidth newHeight text now picks durs hW
  have hres : resizeBackground oldPositions oldInstances newWidth newHeight text
      now picks durs = Except.ok
      { positions := initLetterPositions newWidth newHeight text
        instances := randomLetters.enum.map fun p =>
          ⟨p.2.x, p.2.y, p.2.letter, now,
            now + (LETTER_FADE_DURATION.1 +
              durs p.1 * (LETTER_FADE_DURATION.2 - LETTER_FADE_DURATION.1)) * 1000⟩
        draws := DrawCmd.clear ::
          randomLetters.map fun l => DrawCmd.fill l.letter l.x l.y 0 0 } := by
    unfold resizeBackground
    rw [hinit]
  have htime : ∀ inst ∈ randomLetters.enum.map fun p =>
      (⟨p.2.x, p.2.y, p.2.letter, now,
        now + (LETTER_FADE_DURATION.1 +
          durs p.1 * (LETTER_FADE_DURATION.2 - LETTER_FADE_DURATION.1)) * 1000⟩ :
        LetterInstance), inst.timestamp = now := by
    intro inst hinst
    rcases List.mem_map.mp hinst with ⟨p, _, hpeq⟩
    rw [← hpeq]
  refine ⟨_, hres, htime, ?_, ?_⟩
  · intro inst hinst hmemold
    have ht := htime inst hinst
    have := hold inst hmemold
    rw [ht] at this
    exact lt_irrefl now this
  · exact flatMap_range_map_length _ _ _

/-- C9, witness: resizing away from a state holding one old instance
(stamped at time 0) at resize time 1000 leaves none of it behind on the
rebuilt 17×35 grid. -/
theorem resizeBackground_fresh_witness :
    ∃ nr, resizeBackground [] [⟨1, 2, 'z', 0, 500⟩] 17 35 ['s'] 1000
        (fun _ => 0) (fun _ => 0) = Except.ok nr ∧
      (∀ inst ∈ nr.instances, inst.timestamp = 1000) ∧
      (∀ inst ∈ nr.instances, inst ∉ [(⟨1, 2, 'z', 0, 500⟩ : LetterInstance)]) ∧
      nr.positions.length = jsCeilDiv 35 35 * jsCeilDiv 17 17 :=
  resizeBackground_fresh [] [⟨1, 2, 'z', 0, 500⟩] 17 35 ['s'] 1000
    (fun _ => 0) (fun _ => 0) (by norm_num)
    (by intro inst hinst
        simp only [List.mem_singleton] at hinst
        subst hinst
        norm_num)

end Spectre
